import Mathlib

/-!
Verification of the release-packaging script (`release.py`).

Strings are modelled as `List Char` (a Python `str` is a sequence of characters);
environments and target specs as ordered association lists. The per-target build
loop is modelled as an explicit state-passing function over an abstract disk
(the set of file paths that exist), with the outcomes of the external
collaborators (the toolchain, upx, the filesystem probes, `os.walk`) supplied
as inputs.
-/

/-- The project name constant (`PROJECT_NAME = 'mosdns-log'`). -/
def PROJECT_NAME : List Char := "mosdns-log".data

/-- An ordered association list of (variable, value) pairs: the shape of both
`os.environ` and one entry of `envs` (a TargetSpec). -/
abbrev EnvList := List (List Char × List Char)

/-- Lookup in the merged environment: `os.environ.copy()` (`base`) with the
target pairs assigned over it in order, so the last binding of a key wins.
Models `os_env.get(k)`. -/
def os_env_get (base env : EnvList) (k : List Char) : Option (List Char) :=
  ((base ++ env).reverse.find? (fun p => p.1 == k)).map (fun p => p.2)

/-- One step of the filename-suffix loop (source lines 40–45): keys `GOOS` and
`GOARCH` append `-value`; key `GOAMD64` appends the fixed tag `-v3`; any other
key leaves the name unchanged. -/
def suffixStep (s : List Char) (p : List Char × List Char) : List Char :=
  if p.1 = "GOOS".data ∨ p.1 = "GOARCH".data then s ++ ('-' :: p.2)
  else if p.1 = "GOAMD64".data then s ++ "-v3".data
  else s

/-- The platform-suffixed name `s` built by the loop in source lines 39–45. -/
def suffixName (env : EnvList) : List Char :=
  env.foldl suffixStep PROJECT_NAME

/-- Whether the merged environment resolves `GOOS` to `windows`
(`os_env.get('GOOS') == 'windows'`, source lines 48 and 56). -/
def goosWindows (base env : EnvList) : Bool :=
  os_env_get base env "GOOS".data == some ("windows".data)

/-- The name `s` after the Windows `.exe` suffix step (source lines 47–49). -/
def sFull (base env : EnvList) : List Char :=
  if goosWindows base env then suffixName env ++ ".exe".data else suffixName env

/-- Fuel-driven worker for `replaceL`; each step consumes at least one
character, so fuel equal to the length of the string suffices. -/
def replaceLAux (pat rep : List Char) : Nat → List Char → List Char
  | _, [] => []
  | 0, s => s
  | fuel + 1, c :: cs =>
    if pat ≠ [] ∧ pat.isPrefixOf (c :: cs) then
      rep ++ replaceLAux pat rep fuel ((c :: cs).drop pat.length)
    else
      c :: replaceLAux pat rep fuel cs

/-- Model of Python `str.replace` for a non-empty pattern: scan left to right,
replacing each non-overlapping occurrence of `pat` by `rep`. -/
def replaceL (pat rep s : List Char) : List Char :=
  replaceLAux pat rep s.length s

/-- The archive filename (source lines 51–53): append `.zip` to `s`; if the
result ends with `.exe.zip`, replace the occurrences of `.exe.zip` by `.zip`
(Python `str.replace` replaces every occurrence). -/
def zip_filename (base env : EnvList) : List Char :=
  let z := sFull base env ++ ".zip".data
  if (".exe.zip".data).isSuffixOf z then replaceL (".exe.zip".data) (".zip".data) z
  else z

/-- The binary filename (source lines 55–57): the bare project name, plus
`.exe` when the merged environment resolves `GOOS` to `windows`. -/
def bin_filename (base env : EnvList) : List Char :=
  if goosWindows base env then PROJECT_NAME ++ ".exe".data else PROJECT_NAME

/-- Remove a suffix from a string when it is present (used to state "the archive
filename with its `.zip` suffix removed"). -/
def removeSuffix (suf l : List Char) : List Char :=
  if suf.isSuffixOf l then l.take (l.length - suf.length) else l

/-- Log events emitted while processing one target (source lines 59–113). -/
inductive LogEvent where
  | building
  | compressing
  | upxFailed
  | webMissing
  | success
  | buildFailed
  | unknownError
deriving DecidableEq, Repr

/-- Inputs of one iteration of the target loop: the base process environment,
the target spec, the `-upx` flag, and the outcomes of the external
collaborators — whether `go build` exits zero, whether `upx` is installed and
exits zero, which auxiliary files exist, the file paths produced by
`os.walk(WEB_DIR)`, and whether an exception is raised during archive
construction. -/
structure TargetInput where
  base : EnvList
  env : EnvList
  upx : Bool
  buildOk : Bool
  upxOk : Bool
  configExists : Bool
  readmeExists : Bool
  webExists : Bool
  webWalk : List (List Char)
  archiveExc : Bool
deriving Repr

/-- The observable outcome of one target: the log events emitted and, when the
archive was written and closed successfully, the list of entry names written
into it (in insertion order). -/
structure TargetResult where
  log : List LogEvent
  archive : Option (List (List Char))
deriving Repr

/-- Create a file on the abstract disk (no duplicates). -/
def diskAdd (d : List (List Char)) (f : List Char) : List (List Char) :=
  if f ∈ d then d else d ++ [f]

/-- `os.remove`: delete a file from the abstract disk. -/
def diskRemove (d : List (List Char)) (f : List Char) : List (List Char) :=
  d.filter (fun g => g ≠ f)

/-- The archive entries written on the success path (source lines 79–100), in
order: the binary under its bare name, the config renamed to `config.yaml` if
it exists, `README.md` if it exists, and each file found by walking `WEB_DIR`
under `os.path.relpath(path, '..')` — for paths below `../`, the leading three
characters `../` dropped. -/
def archiveEntries (inp : TargetInput) : List (List Char) :=
  [bin_filename inp.base inp.env]
    ++ (if inp.configExists then ["config.yaml".data] else [])
    ++ (if inp.readmeExists then ["README.md".data] else [])
    ++ (if inp.webExists then inp.webWalk.map (fun p => p.drop 3) else [])

/-- One iteration of the `for env in envs` loop (source lines 35–113), threading
the abstract disk. A failed toolchain invocation is caught
(`CalledProcessError`) and abandons the target; a failed upx step is caught by
the inner handler and falls through; an exception during archive construction
is caught by the outer handler, skipping cleanup. On the success path the
intermediate binary is removed after the archive is closed. -/
def runTarget (inp : TargetInput) (disk : List (List Char)) :
    TargetResult × List (List Char) :=
  let bin := bin_filename inp.base inp.env
  let zipf := zip_filename inp.base inp.env
  if inp.buildOk then
    let disk1 := diskAdd disk bin
    let logU : List LogEvent :=
      if inp.upx then
        if inp.upxOk then [.compressing] else [.compressing, .upxFailed]
      else []
    let disk2 := diskAdd disk1 zipf
    if inp.archiveExc then
      ({ log := [.building] ++ logU ++ [.unknownError], archive := none }, disk2)
    else
      let logW : List LogEvent := if inp.webExists then [] else [.webMissing]
      let disk3 := if bin ∈ disk2 then diskRemove disk2 bin else disk2
      ({ log := [.building] ++ logU ++ logW ++ [.success],
         archive := some (archiveEntries inp) }, disk3)
  else
    ({ log := [.building, .buildFailed], archive := none }, disk)

/-- The whole target loop: process the targets in order, threading the disk.
Every iteration's body is wrapped in the try/except, so no target's failure
stops the later targets. -/
def runTargets : List TargetInput → List (List Char) → List TargetResult × List (List Char)
  | [], d => ([], d)
  | t :: ts, d =>
    let rd := runTarget t d
    let rest := runTargets ts rd.2
    (rd.1 :: rest.1, rest.2)

/-- The one target spec configured in the source (`envs`, line 17–19). -/
def env_linux : EnvList :=
  [("GOOS".data, "linux".data), ("GOARCH".data, "amd64".data), ("GOAMD64".data, "v3".data)]

/-- A Windows target spec whose GOARCH value contains the `.exe` substring. -/
def env_winexe : EnvList :=
  [("GOOS".data, "windows".data), ("GOARCH".data, "x.exey".data)]

/-- An ordinary Windows target spec. -/
def env_windows : EnvList :=
  [("GOOS".data, "windows".data), ("GOARCH".data, "amd64".data)]

/-- A target spec with no key that contributes to the filename. -/
def env_plain : EnvList :=
  [("FOO".data, "bar".data)]

/-- A fully successful concrete target input. -/
def inp_ok : TargetInput :=
  { base := [], env := env_linux, upx := false, buildOk := true, upxOk := true,
    configExists := true, readmeExists := true, webExists := true,
    webWalk := ["../web/a.txt".data], archiveExc := false }

/-- Like `inp_ok` but the toolchain invocation exits non-zero. -/
def inp_fail : TargetInput := { inp_ok with buildOk := false }

/-- Like `inp_ok` but the configuration file is absent. -/
def inp_noconfig : TargetInput := { inp_ok with configExists := false }

/-- Like `inp_ok` but the web asset directory is absent. -/
def inp_noweb : TargetInput := { inp_ok with webExists := false }

/-- Like `inp_ok` but upx is enabled and fails. -/
def inp_upxfail : TargetInput := { inp_ok with upx := true, upxOk := false }

/-- Like `inp_ok` but an exception is raised during archive construction. -/
def inp_exc : TargetInput := { inp_ok with archiveExc := true }

example : suffixName env_linux = "mosdns-log-linux-amd64-v3".data := by decide
example : zip_filename [] env_linux = "mosdns-log-linux-amd64-v3.zip".data := by decide
example : bin_filename [] env_linux = "mosdns-log".data := by decide
example :
    zip_filename [] [("GOOS".data, "windows".data), ("GOARCH".data, "amd64".data)]
      = "mosdns-log-windows-amd64.zip".data := by decide
example :
    bin_filename [] [("GOOS".data, "windows".data)] = "mosdns-log.exe".data := by decide

/-! ### Helper lemmas about `replaceL` -/

/-- The worker `replaceLAux` is insensitive to the exact fuel, as long as the
fuel is at least the length of the string. -/
theorem replaceLAux_congr (pat rep : List Char) :
    ∀ n m s, s.length ≤ n → s.length ≤ m →
      replaceLAux pat rep n s = replaceLAux pat rep m s := by
  intro n
  induction n with
  | zero =>
    intro m s hn _
    have hs : s = [] := List.length_eq_zero.mp (Nat.le_zero.mp hn)
    subst hs
    cases m <;> rfl
  | succ k ih =>
    intro m s hn hm
    cases s with
    | nil => cases m <;> rfl
    | cons c cs =>
      cases m with
      | zero => simp at hm
      | succ j =>
        simp only [replaceLAux]
        by_cases hp : pat ≠ [] ∧ pat.isPrefixOf (c :: cs)
        · rw [if_pos hp, if_pos hp]
          have hp1 : 0 < pat.length := List.length_pos.mpr hp.1
          have hlen : ((c :: cs).drop pat.length).length ≤ k := by
            simp only [List.length_drop, List.length_cons]
            simp only [List.length_cons] at hn
            omega
          have hlen' : ((c :: cs).drop pat.length).length ≤ j := by
            simp only [List.length_drop, List.length_cons]
            simp only [List.length_cons] at hm
            omega
          rw [ih _ _ hlen hlen']
        · rw [if_neg hp, if_neg hp]
          have hlen : cs.length ≤ k := by simp only [List.length_cons] at hn; omega
          have hlen' : cs.length ≤ j := by simp only [List.length_cons] at hm; omega
          rw [ih _ _ hlen hlen']

theorem replaceL_nil (pat rep : List Char) : replaceL pat rep [] = [] := rfl

/-- Unfolding lemma for `replaceL` on a cons cell. -/
theorem replaceL_cons (pat rep : List Char) (c : Char) (cs : List Char) :
    replaceL pat rep (c :: cs) =
      if pat ≠ [] ∧ pat.isPrefixOf (c :: cs) then
        rep ++ replaceL pat rep ((c :: cs).drop pat.length)
      else
        c :: replaceL pat rep cs := by
  show replaceLAux pat rep (cs.length + 1) (c :: cs) = _
  simp only [replaceLAux]
  by_cases hp : pat ≠ [] ∧ pat.isPrefixOf (c :: cs)
  · rw [if_pos hp, if_pos hp]
    congr 1
    apply replaceLAux_congr
    · have hp1 : 0 < pat.length := List.length_pos.mpr hp.1
      simp only [List.length_drop, List.length_cons]
      omega
    · exact le_rfl
  · rw [if_neg hp, if_neg hp]
    rfl

/-- A pattern starting with a character other than `c` is not a prefix of
`c :: cs`. -/
theorem isPrefixOf_cons_false {x c : Char} (pt cs : List Char) (h : c ≠ x) :
    (x :: pt).isPrefixOf (c :: cs) = false := by
  have hb : (x == c) = false := beq_eq_false_iff_ne.mpr (fun h' => h h'.symm)
  simp [List.isPrefixOf, hb]

/-- `replaceL` with the pattern `.exe.zip` leaves a leading character other
than `.` in place. -/
theorem replaceL_cons_ne (rep : List Char) {c : Char} (cs : List Char) (h : c ≠ '.') :
    replaceL (".exe.zip".data) rep (c :: cs) = c :: replaceL (".exe.zip".data) rep cs := by
  rw [replaceL_cons, if_neg]
  rintro ⟨-, hpre⟩
  have hfalse : (".exe.zip".data).isPrefixOf (c :: cs) = false := by
    exact isPrefixOf_cons_false ("exe.zip".data) cs h
  rw [hfalse] at hpre
  exact absurd hpre (by decide)

/-- An infix that starts with a character absent from `a` lies inside `b`. -/
theorem infix_append_drop {x : Char} {l' a b : List Char}
    (hx : x ∉ a) (h : (x :: l') <:+: a ++ b) : (x :: l') <:+: b := by
  induction a with
  | nil => exact h
  | cons y a' ih =>
    rcases List.infix_cons_iff.mp h with hpre | hinf
    · rcases List.cons_prefix_cons.mp hpre with ⟨hxy, -⟩
      exact absurd (by rw [hxy]; exact List.mem_cons_self y a') hx
    · exact ih (fun hm => hx (List.mem_cons_of_mem _ hm)) hinf

/-- Replacing `.exe.zip` in `b ++ ".exe.zip"` for dot-free `b` yields
`b ++ rep`. -/
theorem replaceL_run_end (rep : List Char) :
    ∀ b : List Char, (∀ c ∈ b, c ≠ '.') →
      replaceL (".exe.zip".data) rep (b ++ ".exe.zip".data) = b ++ rep := by
  intro b
  induction b with
  | nil =>
    intro _
    have hcond : (".exe.zip".data ≠ []) ∧
        (".exe.zip".data).isPrefixOf ('.' :: "exe.zip".data) := ⟨by decide, by decide⟩
    calc replaceL (".exe.zip".data) rep ([] ++ ".exe.zip".data)
        = replaceL (".exe.zip".data) rep ('.' :: "exe.zip".data) := rfl
      _ = rep ++ replaceL (".exe.zip".data) rep
            (('.' :: "exe.zip".data).drop (".exe.zip".data).length) := by
          rw [replaceL_cons, if_pos hcond]
      _ = rep ++ replaceL (".exe.zip".data) rep [] := rfl
      _ = [] ++ rep := by rw [replaceL_nil, List.append_nil, List.nil_append]
  | cons c b' ih =>
    intro hb
    have hc : c ≠ '.' := hb c (List.mem_cons_self _ _)
    rw [List.cons_append, replaceL_cons_ne rep _ hc,
      ih (fun d hd => hb d (List.mem_cons_of_mem _ hd)), List.cons_append]

/-- A dot-free string followed by `.zip` contains no occurrence of `.exe`. -/
theorem not_exe_infix {b : List Char} (hb : ∀ c ∈ b, c ≠ '.') :
    ¬ (".exe".data <:+: b ++ ".zip".data) := by
  intro h
  have h' : ('.' :: "exe".data) <:+: b ++ ".zip".data := h
  have h2 := infix_append_drop (fun hm => hb '.' hm rfl) h'
  exact absurd h2 (by decide)

/-! ### Helper lemmas about the filename fold -/

/-- A spec with no `GOOS`/`GOARCH`/`GOAMD64` pair leaves the name unchanged. -/
theorem foldl_suffixStep_id :
    ∀ (env : EnvList) (acc : List Char),
      (∀ p ∈ env, p.1 ≠ "GOOS".data ∧ p.1 ≠ "GOARCH".data ∧ p.1 ≠ "GOAMD64".data) →
      env.foldl suffixStep acc = acc := by
  intro env
  induction env with
  | nil => intro acc _; rfl
  | cons p t ih =>
    intro acc h
    obtain ⟨h1, h2, h3⟩ := h p (List.mem_cons_self _ _)
    simp only [List.foldl_cons]
    have hOr : ¬(p.1 = "GOOS".data ∨ p.1 = "GOARCH".data) := by
      rintro (hh | hh)
      exacts [h1 hh, h2 hh]
    have hstep : suffixStep acc p = acc := by
      unfold suffixStep
      rw [if_neg hOr, if_neg h3]
    rw [hstep]
    exact ih acc (fun q hq => h q (List.mem_cons_of_mem _ hq))

/-- The accumulator is a prefix of the folded name: the loop only appends. -/
theorem foldl_suffixStep_acc_le :
    ∀ (env : EnvList) (acc : List Char), acc <+: env.foldl suffixStep acc := by
  intro env
  induction env with
  | nil => intro acc; exact List.prefix_refl _
  | cons p t ih =>
    intro acc
    simp only [List.foldl_cons]
    have h1 : acc <+: suffixStep acc p := by
      unfold suffixStep
      split
      · exact List.prefix_append _ _
      · split
        · exact List.prefix_append _ _
        · exact List.prefix_refl _
    exact h1.trans (ih (suffixStep acc p))

/-- Any spec containing a `GOAMD64` pair makes `-v3` an infix of the folded
name, whatever the pair's value. -/
theorem tag_infix_foldl :
    ∀ (env : EnvList) (acc : List Char),
      (∃ p ∈ env, p.1 = "GOAMD64".data) →
      "-v3".data <:+: env.foldl suffixStep acc := by
  intro env
  induction env with
  | nil =>
    rintro acc ⟨p, hp, -⟩
    exact absurd hp (List.not_mem_nil p)
  | cons q t ih =>
    rintro acc ⟨p, hp, hk⟩
    simp only [List.foldl_cons]
    rcases List.mem_cons.mp hp with rfl | hpt
    · have hOr : ¬(p.1 = "GOOS".data ∨ p.1 = "GOARCH".data) := by
        rw [hk]; decide
      have hstep : suffixStep acc p = acc ++ "-v3".data := by
        unfold suffixStep
        rw [if_neg hOr, if_pos hk]
      rw [hstep]
      have h1 : "-v3".data <:+: acc ++ "-v3".data := (List.suffix_append _ _).isInfix
      exact h1.trans (foldl_suffixStep_acc_le t (acc ++ "-v3".data)).isInfix
    · exact ih (suffixStep acc q) ⟨p, hpt, hk⟩

/-- If no spec value contains a dot and the accumulator is dot-free, the folded
name is dot-free. -/
theorem foldl_suffixStep_no_dot :
    ∀ (env : EnvList) (acc : List Char),
      (∀ p ∈ env, ∀ c ∈ p.2, c ≠ '.') → (∀ c ∈ acc, c ≠ '.') →
      ∀ c ∈ env.foldl suffixStep acc, c ≠ '.' := by
  intro env
  induction env with
  | nil => intro acc _ hacc; simpa using hacc
  | cons p t ih =>
    intro acc hv hacc
    simp only [List.foldl_cons]
    apply ih
    · intro q hq
      exact hv q (List.mem_cons_of_mem _ hq)
    · intro c hc
      unfold suffixStep at hc
      split at hc
      · rcases List.mem_append.mp hc with h1 | h2
        · exact hacc c h1
        · rcases List.mem_cons.mp h2 with rfl | h3
          · decide
          · exact hv p (List.mem_cons_self _ _) c h3
      · split at hc
        · rcases List.mem_append.mp hc with h1 | h2
          · exact hacc c h1
          · intro hEq
            subst hEq
            exact absurd h2 (by decide)
        · exact hacc c hc

/-- Replacing `.exe.zip` by anything preserves an occurrence of `-v3`: the tag
shares no character with the pattern, so no occurrence of the pattern overlaps
it. -/
theorem tag_infix_replaceL (rep : List Char) :
    ∀ (s : List Char), "-v3".data <:+: s →
      "-v3".data <:+: replaceL (".exe.zip".data) rep s := by
  have main : ∀ n : Nat, ∀ s : List Char, s.length ≤ n → "-v3".data <:+: s →
      "-v3".data <:+: replaceL (".exe.zip".data) rep s := by
    intro n
    induction n with
    | zero =>
      intro s hn hs
      have hnil : s = [] := List.length_eq_zero.mp (Nat.le_zero.mp hn)
      subst hnil
      exact absurd (List.eq_nil_of_infix_nil hs) (by decide)
    | succ k ih =>
      intro s hn hs
      cases s with
      | nil => exact absurd (List.eq_nil_of_infix_nil hs) (by decide)
      | cons c cs =>
        by_cases hp : (".exe.zip".data ≠ []) ∧ (".exe.zip".data).isPrefixOf (c :: cs)
        · rw [replaceL_cons, if_pos hp]
          obtain ⟨t, ht⟩ := List.isPrefixOf_iff_prefix.mp hp.2
          have hdrop : (c :: cs).drop (".exe.zip".data).length = t := by
            rw [← ht, List.drop_left]
          rw [hdrop]
          have hs' : "-v3".data <:+: ".exe.zip".data ++ t := by rw [ht]; exact hs
          have hs'' : ('-' :: "v3".data) <:+: ".exe.zip".data ++ t := hs'
          have h2 : "-v3".data <:+: t := infix_append_drop (by decide) hs''
          have hlen : t.length ≤ k := by
            have hlt := congrArg List.length ht
            have hlen8 : (".exe.zip".data).length = 8 := by decide
            simp only [List.length_append, List.length_cons, hlen8] at hlt
            simp only [List.length_cons] at hn
            omega
          exact (ih t hlen h2).trans (List.suffix_append rep _).isInfix
        · rw [replaceL_cons, if_neg hp]
          rcases List.infix_cons_iff.mp hs with hpre | hinf
          · obtain ⟨t2, ht2⟩ := hpre
            have ht2' : '-' :: 'v' :: '3' :: t2 = c :: cs := ht2
            have hc : ('-' : Char) = c := by injection ht2'
            have hcs : 'v' :: '3' :: t2 = cs := by injection ht2'
            subst hc
            subst hcs
            rw [replaceL_cons_ne rep _ (by decide), replaceL_cons_ne rep _ (by decide)]
            exact (List.prefix_append ("-v3".data)
              (replaceL (".exe.zip".data) rep t2)).isInfix
          · have hlen : cs.length ≤ k := by simp only [List.length_cons] at hn; omega
            exact List.infix_cons (ih cs hlen hinf)
  intro s
  exact main s.length s le_rfl

/-! ### Helper lemmas about the target loop -/

theorem diskAdd_self_mem (d : List (List Char)) (f : List Char) : f ∈ diskAdd d f := by
  unfold diskAdd
  split
  · assumption
  · simp

theorem diskAdd_mem_of_mem {d : List (List Char)} {g : List Char} (f : List Char)
    (h : g ∈ d) : g ∈ diskAdd d f := by
  unfold diskAdd
  split
  · exact h
  · exact List.mem_append_left _ h

/-- A target whose toolchain invocation fails is abandoned: the failure is
logged, no archive is produced, the disk is untouched. -/
theorem runTarget_buildFail (inp : TargetInput) (d : List (List Char))
    (h : inp.buildOk = false) :
    runTarget inp d = ({ log := [.building, .buildFailed], archive := none }, d) := by
  simp [runTarget, h]

/-- The success path of one target: archive produced with its entries, the
binary created then removed after the archive is closed. -/
theorem runTarget_success (inp : TargetInput) (d : List (List Char))
    (hb : inp.buildOk = true) (he : inp.archiveExc = false) :
    runTarget inp d =
      ({ log := [.building]
            ++ (if inp.upx then
                  if inp.upxOk then [.compressing] else [.compressing, .upxFailed]
                else [])
            ++ (if inp.webExists then [] else [.webMissing]) ++ [.success],
         archive := some (archiveEntries inp) },
       diskRemove (diskAdd (diskAdd d (bin_filename inp.base inp.env))
         (zip_filename inp.base inp.env)) (bin_filename inp.base inp.env)) := by
  have hbin : bin_filename inp.base inp.env ∈
      diskAdd (diskAdd d (bin_filename inp.base inp.env)) (zip_filename inp.base inp.env) :=
    diskAdd_mem_of_mem _ (diskAdd_self_mem d _)
  simp [runTarget, hb, he, hbin]

/-- The path where an exception interrupts archive construction: caught and
logged, no archive, no cleanup of the binary. -/
theorem runTarget_exc (inp : TargetInput) (d : List (List Char))
    (hb : inp.buildOk = true) (he : inp.archiveExc = true) :
    runTarget inp d =
      ({ log := [.building]
            ++ (if inp.upx then
                  if inp.upxOk then [.compressing] else [.compressing, .upxFailed]
                else [])
            ++ [.unknownError],
         archive := none },
       diskAdd (diskAdd d (bin_filename inp.base inp.env))
         (zip_filename inp.base inp.env)) := by
  simp [runTarget, hb, he]

/-- One result per target, always. -/
theorem runTargets_length :
    ∀ (ts : List TargetInput) (d : List (List Char)),
      (runTargets ts d).1.length = ts.length := by
  intro ts
  induction ts with
  | nil => intro d; rfl
  | cons t ts' ih =>
    intro d
    simp only [runTargets, List.length_cons, ih]

/-- The i-th result is the result of running the i-th target on some disk. -/
theorem runTargets_get :
    ∀ (ts : List TargetInput) (d : List (List Char)) (i : Nat) (t : TargetInput),
      ts[i]? = some t →
      ∃ d', (runTargets ts d).1[i]? = some (runTarget t d').1 := by
  intro ts
  induction ts with
  | nil =>
    intro d i t h
    simp at h
  | cons u ts' ih =>
    intro d i t h
    cases i with
    | zero =>
      simp only [List.getElem?_cons_zero, Option.some.injEq] at h
      subst h
      refine ⟨d, ?_⟩
      simp only [runTargets, List.getElem?_cons_zero]
    | succ j =>
      simp only [List.getElem?_cons_succ] at h
      obtain ⟨d', hd'⟩ := ih (runTarget u d).2 j t h
      refine ⟨d', ?_⟩
      show ((runTarget u d).1 :: (runTargets ts' (runTarget u d).2).1)[j + 1]? = _
      rw [List.getElem?_cons_succ]
      exact hd'

/-- Anything in the archive is the binary, `config.yaml` (config present),
`README.md` (readme present), or a walked web file (web directory present). -/
theorem mem_archiveEntries {inp : TargetInput} {e : List Char}
    (h : e ∈ archiveEntries inp) :
    e = bin_filename inp.base inp.env ∨
      (inp.configExists = true ∧ e = "config.yaml".data) ∨
      (inp.readmeExists = true ∧ e = "README.md".data) ∨
      (inp.webExists = true ∧ ∃ p ∈ inp.webWalk, e = p.drop 3) := by
  unfold archiveEntries at h
  rcases List.mem_append.mp h with h1 | hweb
  · rcases List.mem_append.mp h1 with h2 | hrd
    · rcases List.mem_append.mp h2 with h3 | hcfg
      · exact Or.inl (by simpa using h3)
      · refine Or.inr (Or.inl ?_)
        revert hcfg
        split
        · next hcond => intro hcfg; exact ⟨hcond, by simpa using hcfg⟩
        · intro hcfg; exact absurd hcfg (List.not_mem_nil e)
    · refine Or.inr (Or.inr (Or.inl ?_))
      revert hrd
      split
      · next hcond => intro hrd; exact ⟨hcond, by simpa using hrd⟩
      · intro hrd; exact absurd hrd (List.not_mem_nil e)
  · refine Or.inr (Or.inr (Or.inr ?_))
    revert hweb
    split
    · next hcond =>
        intro hweb
        obtain ⟨p, hp, hpe⟩ := List.mem_map.mp hweb
        exact ⟨hcond, p, hp, hpe.symm⟩
    · intro hweb; exact absurd hweb (List.not_mem_nil e)

/-- The binary is always among the archive entries. -/
theorem bin_mem_archiveEntries (inp : TargetInput) :
    bin_filename inp.base inp.env ∈ archiveEntries inp := by
  unfold archiveEntries
  exact List.mem_append_left _ (List.mem_append_left _ (List.mem_append_left _
    (List.mem_singleton.mpr rfl)))

/-! ### Claim theorems -/

/-- C1 (counterexample): the repository's own Linux target spec does not
include the pair (GOOS, windows), yet the computed binary filename
(`mosdns-log`) differs from the computed archive filename with its `.zip`
suffix removed (`mosdns-log-linux-amd64-v3`): the binary filename never
carries the platform suffixes. -/
theorem C1_counterexample :
    (("GOOS".data, "windows".data) ∉ env_linux) ∧
      bin_filename [] env_linux ≠ removeSuffix (".zip".data) (zip_filename [] env_linux) := by
  constructor
  · decide
  · decide

/-- C1 (amended): the computed binary filename is the bare project name
(never suffixed by the spec's platform pairs), so it equals the archive
filename with its `.zip` suffix removed exactly when the spec contributes no
suffix: for every TargetSpec with no `GOOS`, `GOARCH` or `GOAMD64` pair and
whose merged environment does not resolve `GOOS` to `windows`, the two names
are the same string. -/
theorem C1_amended (base env : EnvList)
    (hk : ∀ p ∈ env, p.1 ≠ "GOOS".data ∧ p.1 ≠ "GOARCH".data ∧ p.1 ≠ "GOAMD64".data)
    (hw : goosWindows base env = false) :
    bin_filename base env = removeSuffix (".zip".data) (zip_filename base env) := by
  have hname : suffixName env = PROJECT_NAME := foldl_suffixStep_id env PROJECT_NAME hk
  simp only [bin_filename, zip_filename, sFull, hw, hname]
  decide

/-- Witness for `C1_amended` at the concrete spec `env_plain`. -/
theorem C1_amended_witness :
    bin_filename [] env_plain = removeSuffix (".zip".data) (zip_filename [] env_plain) :=
  C1_amended [] env_plain (by decide) (by decide)

/-- C2 (counterexample): the spec `env_winexe` includes the pair
(GOOS, windows), yet its computed archive filename
(`mosdns-log-windows-x.exey.zip`) does contain an occurrence of the substring
`.exe`: the GOARCH value leaks `.exe` into the name, and only occurrences of
`.exe.zip` are collapsed. -/
theorem C2_counterexample :
    (("GOOS".data, "windows".data) ∈ env_winexe) ∧
      ".exe".data <:+: zip_filename [] env_winexe := by
  constructor
  · decide
  · decide

/-- C2 (amended): for every TargetSpec whose merged environment resolves
`GOOS` to `windows`, the computed binary filename ends in `.exe`; and,
provided no pair value contains the character `.`, the computed archive
filename contains no occurrence of the `.exe` substring. -/
theorem C2_amended (base env : EnvList) (hw : goosWindows base env = true) :
    ".exe".data <:+ bin_filename base env ∧
      ((∀ p ∈ env, ∀ c ∈ p.2, c ≠ '.') →
        ¬ (".exe".data <:+: zip_filename base env)) := by
  constructor
  · simp only [bin_filename, hw, if_true]
    exact List.suffix_append _ _
  · intro hv hcontra
    have hnd : ∀ c ∈ suffixName env, c ≠ '.' :=
      foldl_suffixStep_no_dot env PROJECT_NAME hv (by decide)
    have hz : zip_filename base env = suffixName env ++ ".zip".data := by
      simp only [zip_filename, sFull, hw, if_true]
      have hassoc : (suffixName env ++ ".exe".data) ++ ".zip".data
          = suffixName env ++ ".exe.zip".data := by
        rw [List.append_assoc]
        congr 1
      rw [hassoc]
      have hsuf : (".exe.zip".data).isSuffixOf (suffixName env ++ ".exe.zip".data) :=
        List.isSuffixOf_iff_suffix.mpr (List.suffix_append _ _)
      rw [if_pos hsuf]
      exact replaceL_run_end (".zip".data) (suffixName env) hnd
    rw [hz] at hcontra
    exact not_exe_infix hnd hcontra

/-- Witness for `C2_amended` at the concrete spec `env_windows`. -/
theorem C2_amended_witness :
    (".exe".data <:+ bin_filename [] env_windows) ∧
      ¬ (".exe".data <:+: zip_filename [] env_windows) := by
  obtain ⟨h1, h2⟩ := C2_amended [] env_windows (by decide)
  exact ⟨h1, h2 (by decide)⟩

/-- C5 (confirmed): for every TargetSpec containing a pair with key `GOAMD64`,
the fixed tag `-v3` is an infix of the derived name `s` and of the computed
archive filename, whatever the value associated with the key. -/
theorem C5_tag (base env : EnvList) (h : ∃ p ∈ env, p.1 = "GOAMD64".data) :
    "-v3".data <:+: suffixName env ∧ "-v3".data <:+: zip_filename base env := by
  have h1 : "-v3".data <:+: suffixName env := tag_infix_foldl env PROJECT_NAME h
  refine ⟨h1, ?_⟩
  have h2 : "-v3".data <:+: sFull base env := by
    unfold sFull
    split
    · exact h1.trans (List.prefix_append _ _).isInfix
    · exact h1
  have h3 : "-v3".data <:+: sFull base env ++ ".zip".data :=
    h2.trans (List.prefix_append _ _).isInfix
  simp only [zip_filename]
  split
  · exact tag_infix_replaceL _ _ h3
  · exact h3

/-- Witness for `C5_tag` at the repository's Linux spec. -/
theorem C5_tag_witness :
    "-v3".data <:+: suffixName env_linux ∧ "-v3".data <:+: zip_filename [] env_linux :=
  C5_tag [] env_linux (by decide)

/-- C3 (confirmed): if the i-th target's toolchain invocation exits non-zero,
that target yields no archive and the failure is logged, while the loop still
yields one result per target — later targets are processed. -/
theorem C3_failure_isolated (ts : List TargetInput) (d : List (List Char))
    (i : Nat) (t : TargetInput) (ht : ts[i]? = some t) (hfail : t.buildOk = false) :
    (runTargets ts d).1.length = ts.length ∧
      ∃ r, (runTargets ts d).1[i]? = some r ∧ r.archive = none ∧
        LogEvent.buildFailed ∈ r.log := by
  refine ⟨runTargets_length ts d, ?_⟩
  obtain ⟨d', hd'⟩ := runTargets_get ts d i t ht
  refine ⟨(runTarget t d').1, hd', ?_, ?_⟩
  · rw [runTarget_buildFail t d' hfail]
  · rw [runTarget_buildFail t d' hfail]
    simp

/-- Witness for `C3_failure_isolated`: the first of two targets fails, both
still produce a result. -/
theorem C3_failure_isolated_witness :
    (runTargets [inp_fail, inp_ok] []).1.length = 2 ∧
      ∃ r, (runTargets [inp_fail, inp_ok] []).1[0]? = some r ∧ r.archive = none ∧
        LogEvent.buildFailed ∈ r.log :=
  C3_failure_isolated [inp_fail, inp_ok] [] 0 inp_fail rfl rfl

/-- C4 (confirmed): when the configuration file is absent and the target
otherwise succeeds, an archive is produced, it contains no entry named
`config.yaml`, and it contains the binary entry. The paths returned by
`os.walk` are assumed to lie under `../web/`. -/
theorem C4_config_absent (inp : TargetInput) (d : List (List Char))
    (hc : inp.configExists = false) (hb : inp.buildOk = true)
    (he : inp.archiveExc = false)
    (hwalk : ∀ p ∈ inp.webWalk, "../web/".data <+: p) :
    ∃ es, (runTarget inp d).1.archive = some es ∧
      "config.yaml".data ∉ es ∧ bin_filename inp.base inp.env ∈ es := by
  refine ⟨archiveEntries inp, ?_, ?_, bin_mem_archiveEntries inp⟩
  · rw [runTarget_success inp d hb he]
  · intro hmem
    rcases mem_archiveEntries hmem with h1 | ⟨hcfg, -⟩ | ⟨-, h3⟩ | ⟨-, p, hp, h4⟩
    · revert h1
      unfold bin_filename
      split <;> decide
    · rw [hc] at hcfg
      exact absurd hcfg (by decide)
    · exact absurd h3 (by decide)
    · obtain ⟨t, ht⟩ := hwalk p hp
      have hdrop : p.drop 3 = "web/".data ++ t := by
        rw [← ht, List.drop_append_of_le_length (by decide)]
        rfl
      rw [hdrop] at h4
      have h4' : 'c' :: "onfig.yaml".data = 'w' :: ("eb/".data ++ t) := h4
      have h5 : ('c' : Char) = 'w' := by injection h4'
      exact absurd h5 (by decide)

/-- Witness for `C4_config_absent` at the concrete input `inp_noconfig`. -/
theorem C4_config_absent_witness :
    ∃ es, (runTarget inp_noconfig []).1.archive = some es ∧
      "config.yaml".data ∉ es ∧ bin_filename inp_noconfig.base inp_noconfig.env ∈ es :=
  C4_config_absent inp_noconfig [] rfl rfl rfl (by decide)

/-- C6 (confirmed): when the web asset directory exists (and the target
otherwise succeeds), every file found by the recursive walk is added to the
archive under its path relative to the project root, and that archive path
starts with the `web/` prefix. The paths returned by `os.walk` are assumed to
lie under `../web/`. -/
theorem C6_web_included (inp : TargetInput) (d : List (List Char))
    (hw : inp.webExists = true) (hb : inp.buildOk = true) (he : inp.archiveExc = false)
    (hwalk : ∀ p ∈ inp.webWalk, "../web/".data <+: p) :
    ∃ es, (runTarget inp d).1.archive = some es ∧
      ∀ p ∈ inp.webWalk, p.drop 3 ∈ es ∧ "web/".data <+: p.drop 3 := by
  refine ⟨archiveEntries inp, ?_, ?_⟩
  · rw [runTarget_success inp d hb he]
  · intro p hp
    obtain ⟨t, ht⟩ := hwalk p hp
    have hdrop : p.drop 3 = "web/".data ++ t := by
      rw [← ht, List.drop_append_of_le_length (by decide)]
      rfl
    constructor
    · unfold archiveEntries
      apply List.mem_append_right
      rw [hw]
      rw [if_pos rfl]
      exact List.mem_map.mpr ⟨p, hp, rfl⟩
    · rw [hdrop]
      exact List.prefix_append _ _

/-- Witness for `C6_web_included` at the concrete input `inp_ok`. -/
theorem C6_web_included_witness :
    ∃ es, (runTarget inp_ok []).1.archive = some es ∧
      ∀ p ∈ inp_ok.webWalk, p.drop 3 ∈ es ∧ "web/".data <+: p.drop 3 :=
  C6_web_included inp_ok [] rfl rfl rfl (by decide)

/-- C7 (confirmed): when the web asset directory is absent (and the target
otherwise succeeds), the archive is still produced, none of its entries starts
with the `web/` prefix, and the missing-directory warning is logged. -/
theorem C7_web_absent (inp : TargetInput) (d : List (List Char))
    (hw : inp.webExists = false) (hb : inp.buildOk = true)
    (he : inp.archiveExc = false) :
    ∃ es, (runTarget inp d).1.archive = some es ∧
      (∀ e ∈ es, ¬ ("web/".data <+: e)) ∧
      LogEvent.webMissing ∈ (runTarget inp d).1.log := by
  refine ⟨archiveEntries inp, ?_, ?_, ?_⟩
  · rw [runTarget_success inp d hb he]
  · intro e hmem hpre
    rcases mem_archiveEntries hmem with h1 | ⟨-, h2⟩ | ⟨-, h3⟩ | ⟨hw', -⟩
    · subst h1
      revert hpre
      unfold bin_filename
      split <;> decide
    · subst h2
      exact absurd hpre (by decide)
    · subst h3
      exact absurd hpre (by decide)
    · rw [hw] at hw'
      exact absurd hw' (by decide)
  · rw [runTarget_success inp d hb he, hw]
    simp [List.mem_append]

/-- Witness for `C7_web_absent` at the concrete input `inp_noweb`. -/
theorem C7_web_absent_witness :
    ∃ es, (runTarget inp_noweb []).1.archive = some es ∧
      (∀ e ∈ es, ¬ ("web/".data <+: e)) ∧
      LogEvent.webMissing ∈ (runTarget inp_noweb []).1.log :=
  C7_web_absent inp_noweb [] rfl rfl rfl

/-- C8 (confirmed): when the compressor step is enabled and fails, the failure
is logged, the target still produces its archive, and the archive's entry
names are identical to those of the same run with compression disabled. -/
theorem C8_upx_best_effort (inp : TargetInput) (d : List (List Char))
    (hu : inp.upx = true) (hf : inp.upxOk = false)
    (hb : inp.buildOk = true) (he : inp.archiveExc = false) :
    LogEvent.upxFailed ∈ (runTarget inp d).1.log ∧
      (runTarget inp d).1.archive = some (archiveEntries inp) ∧
      (runTarget { inp with upx := false } d).1.archive = (runTarget inp d).1.archive := by
  refine ⟨?_, ?_, ?_⟩
  · rw [runTarget_success inp d hb he, hu, hf]
    simp [List.mem_append]
  · rw [runTarget_success inp d hb he]
  · rw [runTarget_success inp d hb he,
      runTarget_success { inp with upx := false } d hb he]
    rfl

/-- Witness for `C8_upx_best_effort` at the concrete input `inp_upxfail`. -/
theorem C8_upx_best_effort_witness :
    LogEvent.upxFailed ∈ (runTarget inp_upxfail []).1.log ∧
      (runTarget inp_upxfail []).1.archive = some (archiveEntries inp_upxfail) ∧
      (runTarget { inp_upxfail with upx := false } []).1.archive
        = (runTarget inp_upxfail []).1.archive :=
  C8_upx_best_effort inp_upxfail [] rfl rfl rfl rfl

/-- C9 (confirmed): on the success path the intermediate binary is no longer
on disk afterwards, and every other file present after the run's creations —
including the archive — survives: only the binary is removed. -/
theorem C9_binary_cleanup (inp : TargetInput) (d : List (List Char))
    (hb : inp.buildOk = true) (he : inp.archiveExc = false) :
    bin_filename inp.base inp.env ∉ (runTarget inp d).2 ∧
      ∀ f ∈ diskAdd (diskAdd d (bin_filename inp.base inp.env))
          (zip_filename inp.base inp.env),
        f ≠ bin_filename inp.base inp.env → f ∈ (runTarget inp d).2 := by
  rw [runTarget_success inp d hb he]
  constructor
  · intro hmem
    rcases List.mem_filter.mp hmem with ⟨-, hfalse⟩
    simp at hfalse
  · intro f hf hne
    exact List.mem_filter.mpr ⟨hf, decide_eq_true hne⟩

/-- Witness for `C9_binary_cleanup` at the concrete input `inp_ok`. -/
theorem C9_binary_cleanup_witness :
    bin_filename inp_ok.base inp_ok.env ∉ (runTarget inp_ok []).2 ∧
      ∀ f ∈ diskAdd (diskAdd [] (bin_filename inp_ok.base inp_ok.env))
          (zip_filename inp_ok.base inp_ok.env),
        f ≠ bin_filename inp_ok.base inp_ok.env → f ∈ (runTarget inp_ok []).2 :=
  C9_binary_cleanup inp_ok [] rfl rfl

/-- C10 (confirmed): if the build succeeds but an exception interrupts archive
construction, no archive is recorded and the intermediate binary remains on
disk — the cleanup is only reached on the success path. -/
theorem C10_exc_keeps_binary (inp : TargetInput) (d : List (List Char))
    (hb : inp.buildOk = true) (he : inp.archiveExc = true) :
    bin_filename inp.base inp.env ∈ (runTarget inp d).2 ∧
      (runTarget inp d).1.archive = none := by
  rw [runTarget_exc inp d hb he]
  exact ⟨diskAdd_mem_of_mem _ (diskAdd_self_mem d _), rfl⟩

/-- Witness for `C10_exc_keeps_binary` at the concrete input `inp_exc`. -/
theorem C10_exc_keeps_binary_witness :
    bin_filename inp_exc.base inp_exc.env ∈ (runTarget inp_exc []).2 ∧
      (runTarget inp_exc []).1.archive = none :=
  C10_exc_keeps_binary inp_exc [] rfl rfl
